import Mathlib

/-!
Shallow embedding of the `LRUC::LRUCache` (src/cache.h) and
`IntrusiveHashTable` (src/intrusive.h) components, together with proofs of
the specification claims about them.

The cache is modelled at quiescent points of a single-threaded execution:
* the doubly-linked recency list between the two sentinels is the list
  `order` of the keys carried by the linked nodes, LRU end first
  (`head_.next_` is `order.head`, `tail_.prev_` is the last element);
* a map entry's node has `inList() = true` exactly when its key occurs in
  `order` (the `NullNodePtr` poison encoding of `prev_`);
* the `tbb::concurrent_hash_map` is an association list `map`;
* `current_size_` (an `std::atomic<int>`) is the integer `size`;
* `capacity_` is the immutable integer `capacity`.
-/

namespace LRUC

/-- State of one `LRUCache<K, V>` instance at a quiescent point. -/
structure CacheState (K V : Type) where
  /-- Keys on the recency list, `head_.next_` (LRU) first, `tail_.prev_` (MRU) last. -/
  order : List K
  /-- Contents of `hash_map_`, each entry `key ↦ value`. -/
  map : List (K × V)
  /-- `current_size_`. -/
  size : Int
  /-- `capacity_`. -/
  capacity : Int
deriving DecidableEq

variable {K V : Type} [DecidableEq K]

/-- `hash_map_.find`: the value stored under `k`, if any. -/
def lookup : List (K × V) → K → Option V
  | [], _ => none
  | (a, v) :: rest, k => if a = k then some v else lookup rest k

/-- `hash_map_.erase(key)`: drop the entry for `k` (the first one, if present). -/
def mapErase : List (K × V) → K → List (K × V)
  | [], _ => []
  | (a, v) :: rest, k => if a = k then rest else (a, v) :: mapErase rest k

/-- The keys currently stored in the hash map. -/
def keys (m : List (K × V)) : List K := m.map Prod.fst

/-- `LRUCache::popFront` (src/cache.h lines 315-338): under the list mutex take
`head_.next_`; if it is the tail sentinel return; otherwise unlink it; then,
outside the mutex, look the evicted key up in the map and erase it there.
`current_size_` is never touched. -/
def popFront (s : CacheState K V) : CacheState K V :=
  match s.order with
  | [] => s
  | c :: rest =>
    let s1 : CacheState K V := { s with order := rest }
    match lookup s1.map c with
    | none => s1
    | some _ => { s1 with map := mapErase s1.map c }

/-- `LRUCache::find` (src/cache.h lines 385-418).  Returns
`(return value, value copied into the accessor, post state)`.
`tryLockOk` is the outcome of the `std::try_to_lock` acquisition of
`listMutex_`: when it fails the MRU promotion is skipped. -/
def findOp (tryLockOk : Bool) (s : CacheState K V) (k : K) :
    Bool × Option V × CacheState K V :=
  match lookup s.map k with
  | none => (false, none, s)
  | some v =>
    let s1 : CacheState K V :=
      if tryLockOk then
        if k ∈ s.order then { s with order := (s.order.erase k) ++ [k] } else s
      else s
    (true, some v, s1)

/-- `LRUCache::erase` (src/cache.h lines 350-383).  Returns
`(return value, post state)`.  Note that `hash_map_.erase(key)` runs only when
`marked` is set, i.e. when the double-checked unlink did work. -/
def eraseOp (s : CacheState K V) (k : K) : Nat × CacheState K V :=
  match lookup s.map k with
  | none => (0, s)
  | some _ =>
    let marked := k ∈ s.order
    let s1 : CacheState K V :=
      if k ∈ s.order then
        { s with order := s.order.erase k, size := s.size - 1 }
      else s
    let s2 : CacheState K V :=
      if marked then { s1 with map := mapErase s1.map k } else s1
    (1, s2)

/-- `LRUCache::insert` (src/cache.h lines 420-457), single-threaded.  Returns
`(return value, post state)`.  `size = current_size_++` fetches the
pre-increment value; the subsequent `compare_exchange_strong(size, size - 1)`
is executed against the already-incremented counter. -/
def insertOp (s : CacheState K V) (k : K) (v : V) : Bool × CacheState K V :=
  match lookup s.map k with
  | some _ => (false, s)
  | none =>
    let s0 : CacheState K V := { s with map := s.map ++ [(k, v)] }
    let size := s0.size
    let popped := s0.size ≥ s0.capacity
    let s1 := if popped then popFront s0 else s0
    let s2 : CacheState K V := { s1 with order := s1.order ++ [k] }
    let sizeRead := if popped then size else s2.size
    let s3 : CacheState K V := if popped then s2 else { s2 with size := s2.size + 1 }
    let s4 : CacheState K V :=
      if sizeRead > s3.capacity then
        if s3.size = sizeRead then popFront { s3 with size := sizeRead - 1 } else s3
      else s3
    (true, s4)

/-- `LRUCache::clear` (src/cache.h lines 459-466). -/
def clearOp (s : CacheState K V) : CacheState K V :=
  { s with order := [], map := [], size := 0 }

/-- A freshly constructed `LRUCache(size)`: empty list, empty map, zero counter. -/
def initCache (K V : Type) (cap : Int) : CacheState K V :=
  { order := [], map := [], size := 0, capacity := cap }

/-- One public cache operation (return values discarded). -/
inductive CacheOp (K V : Type) where
  | ins (k : K) (v : V)
  | del (k : K)
  | get (k : K)
  | clr
deriving DecidableEq

/-- Run one operation (single-threaded, so `find`'s try-lock succeeds). -/
def stepOp (s : CacheState K V) : CacheOp K V → CacheState K V
  | .ins k v => (insertOp s k v).2
  | .del k => (eraseOp s k).2
  | .get k => (findOp true s k).2.2
  | .clr => clearOp s

/-- Run a sequence of operations. -/
def runOps (s : CacheState K V) (ops : List (CacheOp K V)) : CacheState K V :=
  ops.foldl stepOp s

/-- Insert the keys `1, …, n` (each with itself as value), in that order. -/
def insSeq (n : Nat) : List (CacheOp Nat Nat) :=
  (List.range n).map fun i => CacheOp.ins (i + 1) (i + 1)

/-- The single-threaded quiescent-state invariant: the recency list carries no
duplicates, its keys are exactly the map's keys, the counter equals the list
length and stays within the capacity bound. -/
def Inv (s : CacheState K V) : Prop :=
  s.order.Nodup ∧ (keys s.map).Nodup ∧ (∀ k, k ∈ s.order ↔ k ∈ keys s.map) ∧
    s.size = (s.order.length : Int) ∧ s.size ≤ s.capacity

/-- The `current_size_` manipulation of `LRUCache::insert` after the map
insert succeeded (src/cache.h lines 433-457), with concurrent interference
made explicit.  `snap` is the earlier `current_size_.load()` snapshot,
`popped` records whether the pre-link eviction ran, `ctr` is the counter
value when control reaches `size = current_size_++`, and `delta` is the net
effect of other threads on the counter between that increment and the
`compare_exchange_strong`.  Returns the final counter value and the number
of `popFront` calls made by the post-correction. -/
def insertSizeCtl (cap snap : Int) (popped : Bool) (ctr delta : Int) : Int × Nat :=
  let fetched := if popped then snap else ctr
  let c1 := if popped then ctr else ctr + 1
  let c2 := c1 + delta
  if fetched > cap then
    if c2 = fetched then (fetched - 1, 1) else (c2, 0)
  else (c2, 0)


@[simp] theorem keys_nil : keys ([] : List (K × V)) = [] := rfl

@[simp] theorem keys_cons (a : K) (v : V) (tl : List (K × V)) :
    keys ((a, v) :: tl) = a :: keys tl := rfl

theorem keys_append (m m2 : List (K × V)) : keys (m ++ m2) = keys m ++ keys m2 :=
  List.map_append _ _ _

theorem lookup_eq_none_iff (m : List (K × V)) (k : K) :
    lookup m k = none ↔ k ∉ keys m := by
  induction m with
  | nil => simp [lookup]
  | cons hd tl ih =>
    obtain ⟨a, v⟩ := hd
    by_cases h : a = k
    · subst h; simp [lookup]
    · simp only [lookup, if_neg h, keys_cons, List.mem_cons, not_or, ih]
      have : ¬ k = a := fun hka => h hka.symm
      tauto

theorem lookup_isSome_iff (m : List (K × V)) (k : K) :
    (lookup m k).isSome = true ↔ k ∈ keys m := by
  rcases h : lookup m k with _ | v
  · rw [lookup_eq_none_iff] at h
    simpa using h
  · have : k ∈ keys m := by
      by_contra hk
      rw [← lookup_eq_none_iff] at hk
      simp [hk] at h
    simpa using this

theorem lookup_append_left (m m2 : List (K × V)) (k : K) (h : k ∈ keys m) :
    lookup (m ++ m2) k = lookup m k := by
  induction m with
  | nil => simp at h
  | cons hd tl ih =>
    obtain ⟨a, v⟩ := hd
    by_cases hak : a = k
    · simp [lookup, hak]
    · have h2 : k ∈ keys tl := by
        rcases (by simpa using h : k = a ∨ k ∈ keys tl) with h3 | h3
        · exact absurd h3.symm hak
        · exact h3
      simp [lookup, hak, ih h2]

theorem lookup_append_right (m m2 : List (K × V)) (k : K) (h : k ∉ keys m) :
    lookup (m ++ m2) k = lookup m2 k := by
  induction m with
  | nil => simp
  | cons hd tl ih =>
    obtain ⟨a, v⟩ := hd
    simp only [keys_cons, List.mem_cons, not_or] at h
    have hak : ¬ a = k := fun hka => h.1 hka.symm
    simp [lookup, hak, ih h.2]

theorem mapErase_append_left (m m2 : List (K × V)) (k : K) (h : k ∈ keys m) :
    mapErase (m ++ m2) k = mapErase m k ++ m2 := by
  induction m with
  | nil => simp at h
  | cons hd tl ih =>
    obtain ⟨a, v⟩ := hd
    by_cases hak : a = k
    · simp [mapErase, hak]
    · have h2 : k ∈ keys tl := by
        rcases (by simpa using h : k = a ∨ k ∈ keys tl) with h3 | h3
        · exact absurd h3.symm hak
        · exact h3
      simp [mapErase, hak, ih h2]

theorem keys_mapErase (m : List (K × V)) (k : K) :
    keys (mapErase m k) = (keys m).erase k := by
  induction m with
  | nil => simp [mapErase]
  | cons hd tl ih =>
    obtain ⟨a, v⟩ := hd
    by_cases hak : a = k
    · subst hak
      simp [mapErase, List.erase_cons_head]
    · rw [keys_cons, List.erase_cons_tail (by simpa using hak)]
      simp [mapErase, hak, ih]

theorem lookup_mapErase_self (m : List (K × V)) (k : K) (h : (keys m).Nodup) :
    lookup (mapErase m k) k = none := by
  rw [lookup_eq_none_iff, keys_mapErase]
  exact h.not_mem_erase

theorem popFront_size (s : CacheState K V) : (popFront s).size = s.size := by
  rcases s with ⟨order, map, size, cap⟩
  rcases order with _ | ⟨c, rest⟩
  · rfl
  · simp only [popFront]
    rcases lookup map c with _ | w <;> rfl

theorem popFront_capacity (s : CacheState K V) : (popFront s).capacity = s.capacity := by
  rcases s with ⟨order, map, size, cap⟩
  rcases order with _ | ⟨c, rest⟩
  · rfl
  · simp only [popFront]
    rcases lookup map c with _ | w <;> rfl

theorem eraseOp_absent (s : CacheState K V) (k : K) (hw : lookup s.map k = none) :
    eraseOp s k = (0, s) := by
  simp [eraseOp, hw]

theorem eraseOp_linked (s : CacheState K V) (k : K) (w : V)
    (hw : lookup s.map k = some w) (hin : k ∈ s.order) :
    eraseOp s k =
      (1, { order := s.order.erase k, map := mapErase s.map k,
            size := s.size - 1, capacity := s.capacity }) := by
  simp [eraseOp, hw, hin]

theorem eraseOp_unlinked (s : CacheState K V) (k : K) (w : V)
    (hw : lookup s.map k = some w) (hin : k ∉ s.order) :
    eraseOp s k = (1, s) := by
  simp [eraseOp, hw, hin]

theorem findOp_absent (tl : Bool) (s : CacheState K V) (k : K)
    (hw : lookup s.map k = none) : findOp tl s k = (false, none, s) := by
  simp [findOp, hw]

theorem findOp_present_promote (s : CacheState K V) (k : K) (w : V)
    (hw : lookup s.map k = some w) (hin : k ∈ s.order) :
    findOp true s k = (true, some w, { s with order := s.order.erase k ++ [k] }) := by
  simp [findOp, hw, hin]

theorem findOp_present_nolock (s : CacheState K V) (k : K) (w : V)
    (hw : lookup s.map k = some w) : findOp false s k = (true, some w, s) := by
  simp [findOp, hw]

theorem findOp_present_unlinked (s : CacheState K V) (k : K) (w : V)
    (hw : lookup s.map k = some w) (hin : k ∉ s.order) :
    findOp true s k = (true, some w, s) := by
  simp [findOp, hw, hin]

theorem insertOp_dup (s : CacheState K V) (k : K) (v w : V)
    (hw : lookup s.map k = some w) : insertOp s k v = (false, s) := by
  simp [insertOp, hw]

/-- `insert` of a fresh key while the counter is strictly below capacity:
no eviction, the node is appended as MRU and the counter is incremented. -/
theorem insertOp_new_spare (s : CacheState K V) (k : K) (v : V)
    (hw : lookup s.map k = none) (hsize : s.size < s.capacity) :
    insertOp s k v =
      (true, { order := s.order ++ [k], map := s.map ++ [(k, v)],
               size := s.size + 1, capacity := s.capacity }) := by
  have hpop : ¬ s.size ≥ s.capacity := not_le.mpr hsize
  have hgt : ¬ s.size > s.capacity := not_lt.mpr (le_of_lt hsize)
  simp [insertOp, hw, hpop, hgt]

/-- `insert` of a fresh key while the counter has reached capacity and the
list is nonempty with its LRU key present in the map: the LRU entry is
evicted before linking and the counter is left unchanged. -/
theorem insertOp_new_full (s : CacheState K V) (k : K) (v : V) (c : K) (rest : List K)
    (hw : lookup s.map k = none) (hsize : s.size = s.capacity)
    (horder : s.order = c :: rest) (hc : c ∈ keys s.map) :
    insertOp s k v =
      (true, { order := rest ++ [k], map := mapErase s.map c ++ [(k, v)],
               size := s.size, capacity := s.capacity }) := by
  have hpop : s.size ≥ s.capacity := le_of_eq hsize.symm
  have hgt : ¬ s.size > s.capacity := by omega
  have hlc : lookup (s.map ++ [(k, v)]) c = lookup s.map c := lookup_append_left _ _ _ hc
  have hcsome : (lookup s.map c).isSome = true := (lookup_isSome_iff _ _).mpr hc
  rcases hl : lookup s.map c with _ | w
  · rw [hl] at hcsome; simp at hcsome
  · have hme : mapErase (s.map ++ [(k, v)]) c = mapErase s.map c ++ [(k, v)] :=
      mapErase_append_left _ _ _ hc
    simp [insertOp, hw, hpop, hgt, popFront, horder, hlc, hl, hme]

/-- The counter change made by a single-threaded `insert`, on any state whose
counter respects the capacity bound. -/
theorem insertOp_size (s : CacheState K V) (k : K) (v : V)
    (hw : lookup s.map k = none) (hcap : s.size ≤ s.capacity) :
    (insertOp s k v).2.size = if s.size ≥ s.capacity then s.size else s.size + 1 := by
  by_cases hpop : s.size ≥ s.capacity
  · have hgt : ¬ s.size > s.capacity := by omega
    have hps : (popFront { s with map := s.map ++ [(k, v)] }).size = s.size :=
      popFront_size _
    have hpc : (popFront { s with map := s.map ++ [(k, v)] }).capacity = s.capacity :=
      popFront_capacity _
    simp [insertOp, hw, hpop, hgt, hps, hpc]
  · have hgt : ¬ s.size > s.capacity := by omega
    simp [insertOp, hw, hpop, hgt]

theorem inv_mk_iff (o : List K) (m : List (K × V)) (sz cap : Int) :
    Inv (⟨o, m, sz, cap⟩ : CacheState K V) ↔
      o.Nodup ∧ (keys m).Nodup ∧ (∀ k, k ∈ o ↔ k ∈ keys m) ∧
        sz = (o.length : Int) ∧ sz ≤ cap := Iff.rfl

theorem inv_init (K V : Type) [DecidableEq K] (cap : Int) (hcap : 0 ≤ cap) :
    Inv (initCache K V cap) := by
  refine ⟨List.nodup_nil, List.nodup_nil, ?_, ?_, ?_⟩ <;> simp [initCache, keys, hcap]

theorem inv_clear (s : CacheState K V) (hcap : 0 ≤ s.capacity) : Inv (clearOp s) := by
  refine ⟨List.nodup_nil, List.nodup_nil, ?_, ?_, ?_⟩ <;> simp [clearOp, keys, hcap]

theorem inv_find (s : CacheState K V) (k : K) (h : Inv s) :
    Inv (findOp true s k).2.2 := by
  obtain ⟨hno, hnk, hmem, hlen, hcap⟩ := h
  rcases hl : lookup s.map k with _ | w
  · rw [findOp_absent true s k hl]
    exact ⟨hno, hnk, hmem, hlen, hcap⟩
  · have hkin : k ∈ s.order := (hmem k).mpr ((lookup_isSome_iff _ _).mp (by simp [hl]))
    rw [findOp_present_promote s k w hl hkin]
    refine (inv_mk_iff _ _ _ _).mpr ⟨?_, hnk, ?_, ?_, hcap⟩
    · rw [List.nodup_append]
      exact ⟨hno.erase k, List.nodup_singleton k, by
        intro a ha hb
        simp at hb
        subst hb
        exact hno.not_mem_erase ha⟩
    · intro x
      constructor
      · intro hx
        rcases List.mem_append.mp hx with hx | hx
        · exact (hmem x).mp (List.mem_of_mem_erase hx)
        · simp at hx; subst hx; exact (hmem x).mp hkin
      · intro hx
        by_cases hxk : x = k
        · subst hxk; exact List.mem_append.mpr (Or.inr (by simp))
        · exact List.mem_append.mpr (Or.inl
            ((hno.mem_erase_iff).mpr ⟨hxk, (hmem x).mpr hx⟩))
    · have h1 : (s.order.erase k).length = s.order.length - 1 :=
        List.length_erase_of_mem hkin
      have h2 : 1 ≤ s.order.length := List.length_pos_of_mem hkin
      simp only [List.length_append, List.length_singleton, h1]
      omega

theorem inv_erase (s : CacheState K V) (k : K) (h : Inv s) :
    Inv (eraseOp s k).2 := by
  obtain ⟨hno, hnk, hmem, hlen, hcap⟩ := h
  rcases hl : lookup s.map k with _ | w
  · rw [eraseOp_absent s k hl]
    exact ⟨hno, hnk, hmem, hlen, hcap⟩
  · have hkin : k ∈ s.order := (hmem k).mpr ((lookup_isSome_iff _ _).mp (by simp [hl]))
    rw [eraseOp_linked s k w hl hkin]
    refine (inv_mk_iff _ _ _ _).mpr ⟨hno.erase k, ?_, ?_, ?_, ?_⟩
    · rw [keys_mapErase]; exact hnk.erase k
    · intro x
      rw [keys_mapErase, hno.mem_erase_iff, hnk.mem_erase_iff]
      exact and_congr_right fun _ => hmem x
    · have h1 : (s.order.erase k).length = s.order.length - 1 :=
        List.length_erase_of_mem hkin
      have h2 : 1 ≤ s.order.length := List.length_pos_of_mem hkin
      simp only [h1]
      omega
    · omega

theorem inv_insert (s : CacheState K V) (k : K) (v : V) (hcappos : 0 < s.capacity)
    (h : Inv s) : Inv (insertOp s k v).2 := by
  obtain ⟨hno, hnk, hmem, hlen, hcap⟩ := h
  rcases hl : lookup s.map k with _ | w
  · have hknk : k ∉ keys s.map := (lookup_eq_none_iff _ _).mp hl
    have hkno : k ∉ s.order := fun hx => hknk ((hmem k).mp hx)
    by_cases hfull : s.size = s.capacity
    · -- at capacity: the LRU entry is evicted first
      have hpos : 1 ≤ s.order.length := by omega
      rcases horder : s.order with _ | ⟨c, rest⟩
      · rw [horder] at hpos; simp at hpos
      · have hcin : c ∈ s.order := by rw [horder]; exact List.mem_cons_self c rest
        have hck : c ∈ keys s.map := (hmem c).mp hcin
        rw [insertOp_new_full s k v c rest hl hfull horder hck]
        have hnotail : rest.Nodup ∧ c ∉ rest := by
          rw [horder] at hno
          exact ⟨hno.of_cons, (List.nodup_cons.mp hno).1⟩
        have hknorest : k ∉ rest := fun hx => hkno (by rw [horder]; exact List.mem_cons_of_mem c hx)
        refine (inv_mk_iff _ _ _ _).mpr ⟨?_, ?_, ?_, ?_, ?_⟩
        · rw [List.nodup_append]
          exact ⟨hnotail.1, List.nodup_singleton k, by
            intro a ha hb; simp at hb; subst hb; exact hknorest ha⟩
        · rw [keys_append, keys_mapErase]
          rw [List.nodup_append]
          refine ⟨hnk.erase c, by simp, ?_⟩
          intro a ha hb
          simp at hb; subst hb
          exact hknk (List.mem_of_mem_erase ha)
        · intro x
          rw [keys_append, keys_mapErase]
          simp only [List.mem_append]
          constructor
          · rintro (hx | hx)
            · left
              refine (hnk.mem_erase_iff).mpr ⟨?_, (hmem x).mp (by rw [horder]; exact List.mem_cons_of_mem c hx)⟩
              · intro hxc; subst hxc; exact hnotail.2 hx
            · right; simpa using hx
          · rintro (hx | hx)
            · left
              have hxc := (hnk.mem_erase_iff).mp hx
              have hxorder : x ∈ s.order := (hmem x).mpr hxc.2
              rw [horder] at hxorder
              rcases List.mem_cons.mp hxorder with h3 | h3
              · exact absurd h3 hxc.1
              · exact h3
            · right; simpa using hx
        · simp only [List.length_append, List.length_singleton]
          have : s.order.length = rest.length + 1 := by rw [horder]; simp
          omega
        · simpa using hcap
    · have hlt : s.size < s.capacity := lt_of_le_of_ne hcap hfull
      rw [insertOp_new_spare s k v hl hlt]
      refine (inv_mk_iff _ _ _ _).mpr ⟨?_, ?_, ?_, ?_, ?_⟩
      · rw [List.nodup_append]
        exact ⟨hno, List.nodup_singleton k, by
          intro a ha hb; simp at hb; subst hb; exact hkno ha⟩
      · rw [keys_append]
        rw [List.nodup_append]
        refine ⟨hnk, by simp, ?_⟩
        intro a ha hb
        simp at hb; subst hb
        exact hknk ha
      · intro x
        rw [keys_append]
        simp only [List.mem_append]
        constructor
        · rintro (hx | hx)
          · exact Or.inl ((hmem x).mp hx)
          · right; simpa using hx
        · rintro (hx | hx)
          · exact Or.inl ((hmem x).mpr hx)
          · right; simpa using hx
      · simp only [List.length_append, List.length_singleton]
        omega
      · omega
  · rw [insertOp_dup s k v w hl]
    exact ⟨hno, hnk, hmem, hlen, hcap⟩

theorem inv_step (s : CacheState K V) (op : CacheOp K V) (hcap : 0 < s.capacity)
    (h : Inv s) : Inv (stepOp s op) := by
  rcases op with ⟨k, v⟩ | k | k | _
  · exact inv_insert s k v hcap h
  · exact inv_erase s k h
  · exact inv_find s k h
  · exact inv_clear s (le_of_lt hcap)

theorem insertOp_capacity (s : CacheState K V) (k : K) (v : V) :
    (insertOp s k v).2.capacity = s.capacity := by
  rcases hl : lookup s.map k with _ | w
  · simp only [insertOp, hl]
    repeat' split
    all_goals simp [popFront_capacity]
  · simp [insertOp_dup s k v w hl]

theorem eraseOp_capacity (s : CacheState K V) (k : K) :
    (eraseOp s k).2.capacity = s.capacity := by
  rcases hl : lookup s.map k with _ | w
  · simp [eraseOp_absent s k hl]
  · by_cases hin : k ∈ s.order
    · simp [eraseOp_linked s k w hl hin]
    · simp [eraseOp_unlinked s k w hl hin]

theorem findOp_state_capacity (tl : Bool) (s : CacheState K V) (k : K) :
    (findOp tl s k).2.2.capacity = s.capacity := by
  rcases hl : lookup s.map k with _ | w
  · simp [findOp_absent tl s k hl]
  · simp only [findOp, hl]
    split <;> [skip; rfl]
    split <;> rfl

theorem stepOp_capacity (s : CacheState K V) (op : CacheOp K V) :
    (stepOp s op).capacity = s.capacity := by
  rcases op with ⟨k, v⟩ | k | k | _
  · exact insertOp_capacity s k v
  · exact eraseOp_capacity s k
  · exact findOp_state_capacity true s k
  · rfl

theorem inv_run (s : CacheState K V) (ops : List (CacheOp K V)) (hcap : 0 < s.capacity)
    (h : Inv s) : Inv (runOps s ops) := by
  induction ops generalizing s with
  | nil => exact h
  | cons op rest ih =>
    have h1 : Inv (stepOp s op) := inv_step s op hcap h
    have h2 : 0 < (stepOp s op).capacity := by rw [stepOp_capacity]; exact hcap
    exact ih (stepOp s op) h2 h1

theorem runOps_append (s : CacheState K V) (l1 l2 : List (CacheOp K V)) :
    runOps s (l1 ++ l2) = runOps (runOps s l1) l2 :=
  List.foldl_append _ _ _ _

theorem lookup_selfPairs (l : List Nat) (k : Nat) :
    lookup (l.map fun i => (i, i)) k = if k ∈ l then some k else none := by
  induction l with
  | nil => simp [lookup]
  | cons a t ih =>
    by_cases h : a = k
    · subst h; simp [lookup]
    · have hk : ¬ k = a := fun hka => h hka.symm
      simp [lookup, h, hk, ih]

theorem keys_selfPairs (l : List Nat) : keys (l.map fun i => (i, i)) = l := by
  induction l with
  | nil => rfl
  | cons a t ih => simp [keys] at ih ⊢; exact ih

theorem mapErase_selfPairs (l : List Nat) (c : Nat) :
    mapErase (l.map fun i => (i, i)) c = (l.erase c).map fun i => (i, i) := by
  induction l with
  | nil => rfl
  | cons a t ih =>
    by_cases h : a = c
    · subst h; simp [mapErase, List.erase_cons_head]
    · rw [List.erase_cons_tail (by simpa using h)]
      simp [mapErase, h, ih]

/-- After inserting keys `1, …, m` into a fresh cache of capacity `N ≥ m`, the
recency list is `[1, …, m]` (LRU first), the map holds exactly those keys and
the counter is `m`. -/
theorem run_insSeq (N : Nat) : ∀ m, m ≤ N →
    runOps (initCache Nat Nat (N : Int)) (insSeq m) =
      ⟨List.range' 1 m, (List.range' 1 m).map fun i => (i, i), (m : Int), (N : Int)⟩ := by
  intro m hm
  induction m with
  | zero => simp [runOps, insSeq, initCache]
  | succ m ih =>
    have hm2 : m ≤ N := Nat.le_of_succ_le hm
    have hrw : insSeq (m + 1) = insSeq m ++ [CacheOp.ins (m + 1) (m + 1)] := by
      simp [insSeq, List.range_succ]
    rw [hrw, runOps_append, ih hm2]
    set S : CacheState Nat Nat :=
      ⟨List.range' 1 m, (List.range' 1 m).map fun i => (i, i), (m : Int), (N : Int)⟩ with hS
    have hnotin : (m + 1) ∉ List.range' 1 m := by
      intro hmem
      rw [List.mem_range'_1] at hmem
      omega
    have hlook : lookup S.map (m + 1) = none := by
      show lookup ((List.range' 1 m).map fun i => (i, i)) (m + 1) = none
      simp [lookup_selfPairs, hnotin]
    have hsz : S.size < S.capacity := by
      show (m : Int) < (N : Int)
      exact_mod_cast Nat.lt_of_succ_le hm
    have hstep := insertOp_new_spare S (m + 1) (m + 1) hlook hsz
    have horder : List.range' 1 m ++ [m + 1] = List.range' 1 (m + 1) := by
      have h1 : List.range' 1 (m + 1) = List.range' 1 m ++ [1 + 1 * m] :=
        List.range'_concat 1 m
      rw [h1, Nat.one_mul, Nat.add_comm 1 m]
    show (insertOp S (m + 1) (m + 1)).2 = _
    rw [hstep, hS]
    simp only [CacheState.mk.injEq]
    refine ⟨horder, ?_, ?_⟩
    · rw [← horder, List.map_append]
      simp
    · exact ⟨by omega, trivial⟩

/-- The spec's LRU-ordering scenario: fill a capacity-`N` cache with keys
`1..N`, promote key `1` with a `find`, then insert key `N + 1`.  Key `2`
(not key `1`) is the evicted one: the final map keys are
`1, 3, 4, …, N, N + 1`. -/
theorem run_scenario (N : Nat) (hN : 2 ≤ N) :
    keys (runOps (initCache Nat Nat (N : Int))
        (insSeq N ++ [CacheOp.get 1, CacheOp.ins (N + 1) 0])).map =
      (1 :: List.range' 3 (N - 2)) ++ [N + 1] := by
  rw [runOps_append, run_insSeq N N le_rfl]
  set S : CacheState Nat Nat :=
    ⟨List.range' 1 N, (List.range' 1 N).map fun i => (i, i), (N : Int), (N : Int)⟩ with hS
  have hsplit1 : List.range' 1 N = 1 :: List.range' 2 (N - 1) := by
    have h := List.range'_succ 1 (N - 1) 1
    have hN1 : N - 1 + 1 = N := by omega
    rw [hN1] at h
    exact h
  have hsplit2 : List.range' 2 (N - 1) = 2 :: List.range' 3 (N - 2) := by
    have h := List.range'_succ 2 (N - 2) 1
    have hN2 : N - 2 + 1 = N - 1 := by omega
    rw [hN2] at h
    exact h
  have h1mem : (1 : Nat) ∈ List.range' 1 N := by
    rw [List.mem_range'_1]
    omega
  have hlook1 : lookup S.map 1 = some 1 := by
    show lookup ((List.range' 1 N).map fun i => (i, i)) 1 = some 1
    simp [lookup_selfPairs, h1mem]
  have h1in : (1 : Nat) ∈ S.order := by
    show (1 : Nat) ∈ List.range' 1 N
    exact h1mem
  have hfind := findOp_present_promote S 1 1 hlook1 h1in
  have herase1 : S.order.erase 1 = List.range' 2 (N - 1) := by
    show (List.range' 1 N).erase 1 = List.range' 2 (N - 1)
    rw [hsplit1, List.erase_cons_head]
  show keys (stepOp (stepOp S (CacheOp.get 1)) (CacheOp.ins (N + 1) 0)).map = _
  have hstep1 : stepOp S (CacheOp.get 1) =
      { S with order := List.range' 2 (N - 1) ++ [1] } := by
    show (findOp true S 1).2.2 = _
    rw [hfind, herase1]
  rw [hstep1]
  set T : CacheState Nat Nat := { S with order := List.range' 2 (N - 1) ++ [1] } with hT
  have hlookN : lookup T.map (N + 1) = none := by
    show lookup ((List.range' 1 N).map fun i => (i, i)) (N + 1) = none
    rw [lookup_selfPairs]
    rw [if_neg]
    intro hmem
    rw [List.mem_range'_1] at hmem
    omega
  have hTsize : T.size = T.capacity := rfl
  have hTorder : T.order = 2 :: (List.range' 3 (N - 2) ++ [1]) := by
    show List.range' 2 (N - 1) ++ [1] = _
    rw [hsplit2]
    rfl
  have h2keys : (2 : Nat) ∈ keys T.map := by
    show (2 : Nat) ∈ keys ((List.range' 1 N).map fun i => (i, i))
    rw [keys_selfPairs, List.mem_range'_1]
    omega
  have hins := insertOp_new_full T (N + 1) 0 2 (List.range' 3 (N - 2) ++ [1])
    hlookN hTsize hTorder h2keys
  show keys (insertOp T (N + 1) 0).2.map = _
  rw [hins]
  show keys (mapErase T.map 2 ++ [(N + 1, 0)]) = _
  rw [keys_append]
  have hme : mapErase T.map 2 = ((List.range' 1 N).erase 2).map fun i => (i, i) := by
    show mapErase ((List.range' 1 N).map fun i => (i, i)) 2 = _
    rw [mapErase_selfPairs]
  rw [hme, keys_selfPairs]
  have her2 : (List.range' 1 N).erase 2 = 1 :: List.range' 3 (N - 2) := by
    rw [hsplit1, hsplit2]
    rw [List.erase_cons_tail (by simp)]
    rw [List.erase_cons_head]
  rw [her2]
  rfl

end LRUC

/-!
Shallow embedding of `IntrusiveHashTable` (src/intrusive.h).  A bucket chain
(the nodes reachable from `table[b]` through `htNext`) is a list of nodes,
head of chain first; the bucket array is the list of those chains, `none`
when `table == nullptr`.  A node carries its payload and its cached key hash
`htKeyHash`.
-/

namespace Intrusive

/-- The trial-division loop of `IntrusiveHashTable::isPrime`
(src/intrusive.h lines 473-477): for increasing `k`, while
`36*k*k - 12*k < x`, reject `x` if `6*k + 1` or `6*k - 1` divides it.
The loop is driven by explicit fuel so that it stays structurally
recursive; the loop measure `x - (36*k*k - 12*k)` shrinks at every
iteration, so fuel `x` from `k = 1` is never exhausted (see the fuel
lemmas below). -/
def isPrimeLoopAux (x : Nat) : Nat → Nat → Bool
  | _, 0 => true
  | k, fuel + 1 =>
    if 36 * k * k - 12 * k < x then
      if x % (6 * k + 1) = 0 || x % (6 * k - 1) = 0 then false
      else isPrimeLoopAux x (k + 1) fuel
    else true

/-- `IntrusiveHashTable::isPrime` (src/intrusive.h lines 468-479).
`x &&& 1 = 0` is the `!(x & 1)` evenness test of the source. -/
def isPrime (x : Nat) : Bool :=
  if (x &&& 1 = 0 ∧ x ≠ 2) ∨ x < 2 ∨ (x % 3 = 0 ∧ x ≠ 3) then false
  else isPrimeLoopAux x 1 x

/-- The search loop of `allocate` (src/intrusive.h lines 173-176):
`bucketCount = sizeHint; while (!isPrime(bucketCount)) ++bucketCount;`,
with explicit fuel. -/
def findPrimeAux : Nat → Nat → Nat
  | n, 0 => n
  | n, fuel + 1 => if isPrime n then n else findPrimeAux (n + 1) fuel

/-- The bucket count chosen by `allocate(sizeHint)`.  The fuel `n + 3` is
never exhausted: Bertrand's postulate places a prime in the searched window
(see the fuel lemmas below). -/
def findPrimeFrom (n : Nat) : Nat := findPrimeAux n (n + 3)

/-- A value object inserted in the table: its payload together with the
intrusive `htKeyHash` field of `HashTableNode` (src/intrusive.h lines 8-30).
The `htNext` field is represented by the node's position in its chain. -/
structure HNode (V : Type) where
  value : V
  htKeyHash : Nat
deriving DecidableEq

/-- State of one `IntrusiveHashTable<K, V>`: the bucket array (`none` when
`table == nullptr`), `bucketCount`, `usedBuckets` and the duplicate-keys
flag. -/
structure HashTable (V : Type) where
  table : Option (List (List (HNode V)))
  bucketCount : Nat
  usedBuckets : Nat
  allowDupKeys : Bool
deriving DecidableEq

variable {V : Type}

/-- `IntrusiveHashTable::isAllocated` (src/intrusive.h lines 181-184). -/
def isAllocated (t : HashTable V) : Bool :=
  t.table.isSome && t.bucketCount != 0

/-- `IntrusiveHashTable::allocate(sizeHint)` (src/intrusive.h lines 167-179):
early-out when already allocated, otherwise search the first `isPrime`
bucket count from `sizeHint` upward and allocate that many empty chains
(`new ValueType*[bucketCount]()` zero-initializes every bucket head). -/
def allocate (t : HashTable V) (sizeHint : Nat) : HashTable V :=
  if isAllocated t then t
  else { t with bucketCount := findPrimeFrom sizeHint,
                table := some (List.replicate (findPrimeFrom sizeHint) []) }

/-- The zero-argument `allocate()` overload (src/intrusive.h lines 162-165):
uses `DefaultCapacity = 2053`. -/
def allocateDefault (t : HashTable V) : HashTable V := allocate t 2053

/-- The chain hanging off `table[i]`. -/
def chainAt (t : HashTable V) (i : Nat) : List (HNode V) :=
  (t.table.getD []).getD i []

/-- The scan loop of `IntrusiveHashTable::find` (src/intrusive.h lines
259-264): walk `htNext` links, return the first node whose cached hash
equals `keyHash`. -/
def scanChain (keyHash : Nat) : List (HNode V) → Option (HNode V)
  | [] => none
  | nd :: rest => if nd.htKeyHash = keyHash then some nd else scanChain keyHash rest

/-- `IntrusiveHashTable::find(key)` (src/intrusive.h lines 251-267): null on
an empty table, otherwise scan the single chain at `hashOf(key) mod
bucketCount`.  `hash` is the user-supplied `KeyHasher` (nonzero hashes by
contract). -/
def findNode {K : Type} (hash : K → Nat) (t : HashTable V) (key : K) : Option (HNode V) :=
  if t.usedBuckets = 0 then none
  else scanChain (hash key) (chainAt t (hash key % t.bucketCount))

end Intrusive

namespace Intrusive

theorem measure_mono (k j : Nat) (h : k ≤ j) :
    36 * k * k - 12 * k ≤ 36 * j * j - 12 * j := by
  induction j with
  | zero =>
    have : k = 0 := by omega
    subst this
    exact le_rfl
  | succ j ih =>
    rcases Nat.lt_or_ge k (j + 1) with h2 | h2
    · have hstep : 36 * j * j - 12 * j ≤ 36 * (j + 1) * (j + 1) - 12 * (j + 1) := by
        have hr : 36 * (j + 1) * (j + 1) = 36 * j * j + 72 * j + 36 := by ring
        omega
      exact le_trans (ih (by omega)) hstep
    · have : k = j + 1 := by omega
      subst this
      exact le_rfl

/-- If the trial-division loop accepted `x` (with enough fuel for the loop
measure), then no divisor of the form `6*j + 1` or `6*j - 1` inside the
scanned window divides `x`. -/
theorem isPrimeLoopAux_sound (x : Nat) : ∀ fuel k,
    x - (36 * k * k - 12 * k) ≤ fuel → isPrimeLoopAux x k fuel = true →
    ∀ j, k ≤ j → 36 * j * j - 12 * j < x →
      ¬ x % (6 * j + 1) = 0 ∧ ¬ x % (6 * j - 1) = 0 := by
  intro fuel
  induction fuel with
  | zero =>
    intro k hle _ j hkj hj
    exfalso
    have hm := measure_mono k j hkj
    omega
  | succ fuel ih =>
    intro k hle htrue j hkj hj
    by_cases hcond : 36 * k * k - 12 * k < x
    · rw [isPrimeLoopAux, if_pos hcond] at htrue
      by_cases hdiv : x % (6 * k + 1) = 0 ∨ x % (6 * k - 1) = 0
      · exfalso
        have hc : (x % (6 * k + 1) = 0 || x % (6 * k - 1) = 0 : Bool) = true := by
          rcases hdiv with h | h <;> simp [h]
        rw [if_pos hc] at htrue
        exact Bool.false_ne_true htrue
      · push_neg at hdiv
        have hc : (x % (6 * k + 1) = 0 || x % (6 * k - 1) = 0 : Bool) = false := by
          simp [hdiv.1, hdiv.2]
        rw [if_neg (by simp [hc])] at htrue
        rcases Nat.eq_or_lt_of_le hkj with heq | hlt
        · subst heq
          exact ⟨hdiv.1, hdiv.2⟩
        · have hr : 36 * (k + 1) * (k + 1) = 36 * k * k + 72 * k + 36 := by ring
          exact ih (k + 1) (by omega) htrue j (by omega) hj
    · exfalso
      have hm := measure_mono k j hkj
      omega

/-- A prime is never rejected by the trial-division loop. -/
theorem isPrimeLoopAux_of_prime (x : Nat) (hx : Nat.Prime x) : ∀ fuel k, 1 ≤ k →
    isPrimeLoopAux x k fuel = true := by
  intro fuel
  induction fuel with
  | zero => intro k _; rfl
  | succ fuel ih =>
    intro k hk
    rw [isPrimeLoopAux]
    by_cases hcond : 36 * k * k - 12 * k < x
    · rw [if_pos hcond]
      have hsq : 36 * k ≤ 36 * k * k := by nlinarith
      have hd1 : ¬ x % (6 * k + 1) = 0 := by
        intro hmod
        have hdvd : (6 * k + 1) ∣ x := Nat.dvd_of_mod_eq_zero hmod
        rcases hx.eq_one_or_self_of_dvd _ hdvd with h1 | h1
        · omega
        · omega
      have hd2 : ¬ x % (6 * k - 1) = 0 := by
        intro hmod
        have hdvd : (6 * k - 1) ∣ x := Nat.dvd_of_mod_eq_zero hmod
        rcases hx.eq_one_or_self_of_dvd _ hdvd with h1 | h1
        · omega
        · omega
      have hc : (x % (6 * k + 1) = 0 || x % (6 * k - 1) = 0 : Bool) = false := by
        simp [hd1, hd2]
      rw [if_neg (by simp [hc])]
      exact ih (k + 1) (by omega)
    · rw [if_neg hcond]

/-- The source's `isPrime` is a correct primality test. -/
theorem isPrime_iff (x : Nat) : isPrime x = true ↔ Nat.Prime x := by
  have hand : x &&& 1 = x % 2 := Nat.and_one_is_mod x
  constructor
  · intro h
    rw [isPrime] at h
    by_cases hfilter : (x &&& 1 = 0 ∧ x ≠ 2) ∨ x < 2 ∨ (x % 3 = 0 ∧ x ≠ 3)
    · rw [if_pos hfilter] at h
      exact absurd h Bool.false_ne_true
    · rw [if_neg hfilter] at h
      by_contra hnp
      have hx2 : 2 ≤ x := by
        by_contra hlt
        exact hfilter (Or.inr (Or.inl (by omega)))
      have hxne2 : x ≠ 2 := by
        intro heq
        subst heq
        exact hnp Nat.prime_two
      have hxne3 : x ≠ 3 := by
        intro heq
        subst heq
        exact hnp Nat.prime_three
      have hodd : x % 2 = 1 := by
        rcases Nat.mod_two_eq_zero_or_one x with h2 | h2
        · exact absurd (Or.inl ⟨by omega, hxne2⟩) hfilter
        · exact h2
      have h3 : x % 3 ≠ 0 := by
        intro h3
        exact hfilter (Or.inr (Or.inr ⟨h3, hxne3⟩))
      have hx5 : 5 ≤ x := by omega
      set p := x.minFac with hp
      have hpprime : p.Prime := Nat.minFac_prime (by omega)
      have hpdvd : p ∣ x := Nat.minFac_dvd x
      have hpsq : p ^ 2 ≤ x := Nat.minFac_sq_le_self (by omega) hnp
      have hppmul : p * p ≤ x := by
        have : p ^ 2 = p * p := by ring
        omega
      have hp2 : p ≠ 2 := by
        intro heq
        rw [heq] at hpdvd
        have := Nat.mod_eq_zero_of_dvd hpdvd
        omega
      have hp3 : p ≠ 3 := by
        intro heq
        rw [heq] at hpdvd
        have := Nat.mod_eq_zero_of_dvd hpdvd
        omega
      have hpmod2 : p % 2 = 1 := by
        rcases Nat.mod_two_eq_zero_or_one p with h2 | h2
        · have hdvd2 : 2 ∣ p := Nat.dvd_of_mod_eq_zero h2
          rcases hpprime.eq_one_or_self_of_dvd 2 hdvd2 with hh | hh <;> omega
        · exact h2
      have hpmod3 : p % 3 ≠ 0 := by
        intro h3m
        have hdvd3 : 3 ∣ p := Nat.dvd_of_mod_eq_zero h3m
        rcases hpprime.eq_one_or_self_of_dvd 3 hdvd3 with hh | hh <;> omega
      have hp5 : 5 ≤ p := by
        have := hpprime.two_le
        omega
      have hxmodp : x % p = 0 := Nat.mod_eq_zero_of_dvd hpdvd
      have hp6 : p % 6 = 1 ∨ p % 6 = 5 := by omega
      rcases hp6 with h6 | h6
      · -- p = 6*k + 1 with k = p / 6 ≥ 1
        set k := p / 6 with hk
        have hpk : p = 6 * k + 1 := by omega
        have hk1 : 1 ≤ k := by omega
        have hmeas : 36 * k * k - 12 * k < x := by
          have hexp : (6 * k + 1) * (6 * k + 1) = 36 * k * k + 12 * k + 1 := by ring
          have : p * p = 36 * k * k + 12 * k + 1 := by rw [hpk, hexp]
          omega
        have := (isPrimeLoopAux_sound x x 1 (by omega) h k hk1 hmeas).1
        rw [← hpk] at this
        exact this hxmodp
      · -- p = 6*k - 1 with k = p / 6 + 1 ≥ 1
        set k := p / 6 + 1 with hk
        have hpk : p = 6 * k - 1 := by omega
        have hk1 : 1 ≤ k := by omega
        have hmeas : 36 * k * k - 12 * k < x := by
          have hexp : (6 * k) * (6 * k) = 36 * k * k := by ring
          have hpk2 : p + 1 = 6 * k := by omega
          have h1 : (p + 1) * (p + 1) = 36 * k * k := by rw [hpk2, hexp]
          have h2 : (p + 1) * (p + 1) = p * p + 2 * p + 1 := by ring
          omega
        have := (isPrimeLoopAux_sound x x 1 (by omega) h k hk1 hmeas).2
        rw [← hpk] at this
        exact this hxmodp
  · intro hp
    rw [isPrime]
    have hfilter : ¬ ((x &&& 1 = 0 ∧ x ≠ 2) ∨ x < 2 ∨ (x % 3 = 0 ∧ x ≠ 3)) := by
      rintro (⟨heven, hne2⟩ | hlt | ⟨h3, hne3⟩)
      · have hdvd2 : 2 ∣ x := Nat.dvd_of_mod_eq_zero (by omega)
        rcases hp.eq_one_or_self_of_dvd 2 hdvd2 with hh | hh
        · omega
        · exact hne2 hh.symm
      · have := hp.two_le
        omega
      · have hdvd3 : 3 ∣ x := Nat.dvd_of_mod_eq_zero h3
        rcases hp.eq_one_or_self_of_dvd 3 hdvd3 with hh | hh
        · omega
        · exact hne3 hh.symm
    rw [if_neg hfilter]
    exact isPrimeLoopAux_of_prime x hp x 1 le_rfl

end Intrusive

namespace Intrusive

/-- Bertrand's postulate packaged for the bucket-count search: the window
`[n, n + (n + 3))` always contains a number the source's `isPrime` accepts. -/
theorem exists_isPrime_window (n : Nat) :
    ∃ m, n ≤ m ∧ m < n + (n + 3) ∧ isPrime m = true := by
  by_cases hn : n ≤ 2
  · exact ⟨2, by omega, by omega, (isPrime_iff 2).mpr Nat.prime_two⟩
  · obtain ⟨p, hp, hlt, hle⟩ := Nat.exists_prime_lt_and_le_two_mul (n - 1) (by omega)
    exact ⟨p, by omega, by omega, (isPrime_iff p).mpr hp⟩

/-- With enough fuel to reach one accepted value, `findPrimeAux` returns the
least `isPrime`-accepted number that is `≥ n`. -/
theorem findPrimeAux_spec : ∀ fuel n,
    (∃ m, n ≤ m ∧ m < n + fuel ∧ isPrime m = true) →
    isPrime (findPrimeAux n fuel) = true ∧ n ≤ findPrimeAux n fuel ∧
      ∀ j, n ≤ j → isPrime j = true → findPrimeAux n fuel ≤ j := by
  intro fuel
  induction fuel with
  | zero =>
    rintro n ⟨m, h1, h2, _⟩
    omega
  | succ fuel ih =>
    rintro n ⟨m, h1, h2, h3⟩
    by_cases hn : isPrime n = true
    · rw [show findPrimeAux n (fuel + 1) = n by simp [findPrimeAux, hn]]
      exact ⟨hn, le_rfl, fun j hj _ => hj⟩
    · rw [show findPrimeAux n (fuel + 1) = findPrimeAux (n + 1) fuel by
        simp [findPrimeAux, hn]]
      have hmn : m ≠ n := fun h => hn (h ▸ h3)
      obtain ⟨hs1, hs2, hs3⟩ := ih (n + 1) ⟨m, by omega, by omega, h3⟩
      refine ⟨hs1, by omega, fun j hj hjp => ?_⟩
      have hjn : j ≠ n := fun h => hn (h ▸ hjp)
      exact hs3 j (by omega) hjp

/-- The bucket-count search returns exactly the smallest prime `≥ n`. -/
theorem findPrimeFrom_spec (n : Nat) :
    Nat.Prime (findPrimeFrom n) ∧ n ≤ findPrimeFrom n ∧
      ∀ p, Nat.Prime p → n ≤ p → findPrimeFrom n ≤ p := by
  obtain ⟨h1, h2, h3⟩ := findPrimeAux_spec (n + 3) n (exists_isPrime_window n)
  exact ⟨(isPrime_iff _).mp h1, h2,
    fun p hp hnp => h3 p hnp ((isPrime_iff p).mpr hp)⟩

end Intrusive

namespace LRUC

variable {K V : Type} [DecidableEq K]

theorem findOp_ret (tl : Bool) (s : CacheState K V) (k : K) :
    (findOp tl s k).1 = (lookup s.map k).isSome := by
  rcases hl : lookup s.map k with _ | w
  · simp [findOp, hl]
  · simp [findOp, hl]

theorem findOp_val (tl : Bool) (s : CacheState K V) (k : K) :
    (findOp tl s k).2.1 = lookup s.map k := by
  rcases hl : lookup s.map k with _ | w
  · simp [findOp, hl]
  · simp [findOp, hl]

theorem findOp_nolock_state (s : CacheState K V) (k : K) :
    (findOp false s k).2.2 = s := by
  rcases hl : lookup s.map k with _ | w
  · simp [findOp, hl]
  · simp [findOp, hl]

theorem findOp_map_frame (tl : Bool) (s : CacheState K V) (k : K) :
    (findOp tl s k).2.2.map = s.map := by
  rcases hl : lookup s.map k with _ | w
  · simp [findOp, hl]
  · simp only [findOp, hl]
    split <;> [skip; rfl]
    split <;> rfl

theorem findOp_size_frame (tl : Bool) (s : CacheState K V) (k : K) :
    (findOp tl s k).2.2.size = s.size := by
  rcases hl : lookup s.map k with _ | w
  · simp [findOp, hl]
  · simp only [findOp, hl]
    split <;> [skip; rfl]
    split <;> rfl

theorem insertOp_ret (s : CacheState K V) (k : K) (v : V) :
    (insertOp s k v).1 = (lookup s.map k).isNone := by
  rcases hl : lookup s.map k with _ | w
  · simp [insertOp, hl]
  · simp [insertOp, hl]

theorem runOps_capacity (s : CacheState K V) (ops : List (CacheOp K V)) :
    (runOps s ops).capacity = s.capacity := by
  induction ops generalizing s with
  | nil => rfl
  | cons op rest ih => rw [runOps, List.foldl_cons, ← runOps, ih, stepOp_capacity]

end LRUC

namespace Intrusive

variable {V : Type}

theorem scanChain_eq_find (keyHash : Nat) (chain : List (HNode V)) :
    scanChain keyHash chain = chain.find? (fun nd => nd.htKeyHash == keyHash) := by
  induction chain with
  | nil => rfl
  | cons nd rest ih =>
    by_cases hh : nd.htKeyHash = keyHash
    · simp [scanChain, List.find?_cons, hh]
    · have hb : (nd.htKeyHash == keyHash) = false := by simp [hh]
      rw [List.find?_cons, hb]
      simpa [scanChain, hh] using ih

end Intrusive

/-!
The specification claims.
-/

/-- C1 (counterexample): in a state where key `1` is present in the map but
its list node is not linked, `erase` returns 1 yet leaves the map untouched
(the `hash_map_.erase(key)` call is guarded by `marked`), so a subsequent
`find(1)` still returns true.  This refutes the claim that the key is erased
from the map regardless of whether the list-unlink step did any work. -/
theorem c1_erase_unlinked_counterexample :
    LRUC.eraseOp (⟨[], [(1, 10)], 0, 1⟩ : LRUC.CacheState Nat Nat) 1 =
      (1, (⟨[], [(1, 10)], 0, 1⟩ : LRUC.CacheState Nat Nat)) ∧
    (LRUC.findOp true
      (LRUC.eraseOp (⟨[], [(1, 10)], 0, 1⟩ : LRUC.CacheState Nat Nat) 1).2 1).1 = true := by
  decide

/-- C1 (amended): `erase(key)` returns 0 when the key is absent and 1 when it
is present.  When the key's node is linked, erase unlinks it, decrements the
counter, and erases the key from the map, so a subsequent `find` returns
false.  When the key is present but its node is not linked, erase still
returns 1 but skips the map erase (the map erase runs only when the unlink
step did work), leaving the state unchanged, so a subsequent `find` still
returns true. -/
theorem c1_erase_map_guard_amended {K V : Type} [DecidableEq K]
    (s : LRUC.CacheState K V) (k : K) (hnk : (LRUC.keys s.map).Nodup) :
    (LRUC.lookup s.map k = none → LRUC.eraseOp s k = (0, s)) ∧
    (∀ w, LRUC.lookup s.map k = some w → (LRUC.eraseOp s k).1 = 1) ∧
    (∀ w, LRUC.lookup s.map k = some w → k ∈ s.order →
      LRUC.lookup (LRUC.eraseOp s k).2.map k = none ∧
      (LRUC.findOp true (LRUC.eraseOp s k).2 k).1 = false) ∧
    (∀ w, LRUC.lookup s.map k = some w → k ∉ s.order → (LRUC.eraseOp s k).2 = s) := by
  refine ⟨fun hw => LRUC.eraseOp_absent s k hw, fun w hw => ?_,
    fun w hw hin => ?_, fun w hw hnin => ?_⟩
  · by_cases hin : k ∈ s.order
    · rw [LRUC.eraseOp_linked s k w hw hin]
    · rw [LRUC.eraseOp_unlinked s k w hw hin]
  · rw [LRUC.eraseOp_linked s k w hw hin]
    have hl2 : LRUC.lookup (LRUC.mapErase s.map k) k = none :=
      LRUC.lookup_mapErase_self s.map k hnk
    refine ⟨hl2, ?_⟩
    rw [LRUC.findOp_ret]
    show (LRUC.lookup (LRUC.mapErase s.map k) k).isSome = false
    rw [hl2]
    rfl
  · rw [LRUC.eraseOp_unlinked s k w hw hnin]

/-- C1 (amended, witness): concrete run of the amended statement on the state
with key `1` linked in a capacity-2 cache. -/
theorem c1_erase_map_guard_amended_witness :
    (LRUC.keys ((⟨[1], [(1, 10)], 1, 2⟩ : LRUC.CacheState Nat Nat).map)).Nodup ∧
    LRUC.lookup
      (LRUC.eraseOp (⟨[1], [(1, 10)], 1, 2⟩ : LRUC.CacheState Nat Nat) 1).2.map 1 = none ∧
    (LRUC.findOp true
      (LRUC.eraseOp (⟨[1], [(1, 10)], 1, 2⟩ : LRUC.CacheState Nat Nat) 1).2 1).1 = false := by
  have h := (c1_erase_map_guard_amended
    (⟨[1], [(1, 10)], 1, 2⟩ : LRUC.CacheState Nat Nat) 1 (by decide)).2.2.1
    10 (by decide) (by decide)
  exact ⟨by decide, h.1, h.2⟩

/-- C2: evaluation of the post-link counter logic of `insert` at the failing
input.  Capacity 1; no pre-link eviction was performed (`popped = false`);
when control reaches `size = current_size_++` the counter is already 1 (a
concurrent insert raised it after this thread's snapshot); no further
interference.  The post-increment value of the counter is `1 + 1 = 2`, which
exceeds the capacity 1, yet the code performs no CAS decrement and no
`popFront` (`0` pops) and leaves the counter at 2: the code compares the
fetched pre-increment value (1) against capacity, not the post-increment
value demanded by the claim, so no thread performs the extra eviction and
the capacity bound stays violated. -/
theorem c2_insert_postlink_divergence :
    LRUC.insertSizeCtl 1 0 false 1 0 = (2, 0) ∧ ((1 : Int) + 1 > 1) := by
  decide

/-- C3: after any sequence of single-threaded `insert`/`erase`/`find`/`clear`
operations on a fresh cache of positive capacity, `find` succeeds exactly on
the map's keys, those keys are duplicate-free, `size()` equals their number,
and `size()` is at most `capacity()`. -/
theorem c3_single_thread_invariant (K V : Type) [DecidableEq K] (cap : Int)
    (hcap : 0 < cap) (ops : List (LRUC.CacheOp K V)) :
    (LRUC.keys (LRUC.runOps (LRUC.initCache K V cap) ops).map).Nodup ∧
    (∀ k, (LRUC.findOp true (LRUC.runOps (LRUC.initCache K V cap) ops) k).1 = true ↔
        k ∈ LRUC.keys (LRUC.runOps (LRUC.initCache K V cap) ops).map) ∧
    (LRUC.runOps (LRUC.initCache K V cap) ops).size =
      ((LRUC.keys (LRUC.runOps (LRUC.initCache K V cap) ops).map).length : Int) ∧
    (LRUC.runOps (LRUC.initCache K V cap) ops).size ≤ cap := by
  have hInv : LRUC.Inv (LRUC.runOps (LRUC.initCache K V cap) ops) :=
    LRUC.inv_run _ ops hcap (LRUC.inv_init K V cap (le_of_lt hcap))
  obtain ⟨hno, hnk, hmem, hlen, hcap2⟩ := hInv
  have hcapeq : (LRUC.runOps (LRUC.initCache K V cap) ops).capacity = cap :=
    LRUC.runOps_capacity _ _
  refine ⟨hnk, ?_, ?_, ?_⟩
  · intro k
    rw [LRUC.findOp_ret, LRUC.lookup_isSome_iff]
  · have hperm : (LRUC.runOps (LRUC.initCache K V cap) ops).order.length =
        (LRUC.keys (LRUC.runOps (LRUC.initCache K V cap) ops).map).length :=
      ((List.perm_ext_iff_of_nodup hno hnk).mpr hmem).length_eq
    rw [hlen, hperm]
  · exact le_of_le_of_eq hcap2 hcapeq

/-- C3 (witness): a concrete run on a capacity-2 cache. -/
theorem c3_single_thread_invariant_witness :
    (0 : Int) < 2 ∧
    (LRUC.runOps (LRUC.initCache Nat Nat 2)
      [LRUC.CacheOp.ins 1 10, LRUC.CacheOp.ins 2 20, LRUC.CacheOp.del 1,
       LRUC.CacheOp.get 2, LRUC.CacheOp.ins 3 30]).size ≤ 2 :=
  ⟨by decide, (c3_single_thread_invariant Nat Nat 2 (by decide)
    [LRUC.CacheOp.ins 1 10, LRUC.CacheOp.ins 2 20, LRUC.CacheOp.del 1,
     LRUC.CacheOp.get 2, LRUC.CacheOp.ins 3 30]).2.2.2⟩

/-- C4: fill a capacity-`N` cache (`N ≥ 2`) with keys `1..N`, touch key `1`
via `find`, then insert key `N + 1`: key `1` is still present and key `2` is
the evicted one.  In particular for capacity 3 with inserts
`(1,"a") (2,"b") (3,"c")`, `find(1)`, insert `(4,"d")`, the keys present are
exactly `1, 3, 4`. -/
theorem c4_lru_promotion_order (N : Nat) (hN : 2 ≤ N) :
    (1 ∈ LRUC.keys (LRUC.runOps (LRUC.initCache Nat Nat (N : Int))
        (LRUC.insSeq N ++ [LRUC.CacheOp.get 1, LRUC.CacheOp.ins (N + 1) 0])).map ∧
     2 ∉ LRUC.keys (LRUC.runOps (LRUC.initCache Nat Nat (N : Int))
        (LRUC.insSeq N ++ [LRUC.CacheOp.get 1, LRUC.CacheOp.ins (N + 1) 0])).map) ∧
    LRUC.keys (LRUC.runOps (LRUC.initCache Nat String 3)
        [LRUC.CacheOp.ins 1 "a", LRUC.CacheOp.ins 2 "b", LRUC.CacheOp.ins 3 "c",
         LRUC.CacheOp.get 1, LRUC.CacheOp.ins 4 "d"]).map = [1, 3, 4] := by
  constructor
  · rw [LRUC.run_scenario N hN]
    constructor
    · simp
    · intro hmem
      rcases List.mem_append.mp hmem with h | h
      · rcases List.mem_cons.mp h with h2 | h2
        · omega
        · rw [List.mem_range'_1] at h2
          omega
      · have h2 : 2 = N + 1 := by simpa using h
        omega
  · decide

/-- C4 (witness): the scenario at `N = 3`. -/
theorem c4_lru_promotion_order_witness :
    2 ≤ 3 ∧
    (1 ∈ LRUC.keys (LRUC.runOps (LRUC.initCache Nat Nat (3 : Int))
        (LRUC.insSeq 3 ++ [LRUC.CacheOp.get 1, LRUC.CacheOp.ins 4 0])).map ∧
     2 ∉ LRUC.keys (LRUC.runOps (LRUC.initCache Nat Nat (3 : Int))
        (LRUC.insSeq 3 ++ [LRUC.CacheOp.get 1, LRUC.CacheOp.ins 4 0])).map) :=
  ⟨by decide, (c4_lru_promotion_order 3 (by decide)).1⟩

/-- C5: `find(accessor, key)` returns true exactly when the key is present in
the map; on success the accessor receives a copy of the stored value (the
accessor content equals the map entry); and when the list mutex try-lock
fails the state is left entirely unchanged while the return value and the
value copy are the same — the promotion is skipped but the find still
succeeds.  `find` never changes the map or the size counter. -/
theorem c5_find_semantics {K V : Type} [DecidableEq K] (tl : Bool)
    (s : LRUC.CacheState K V) (k : K) :
    ((LRUC.findOp tl s k).1 = (LRUC.lookup s.map k).isSome) ∧
    ((LRUC.findOp tl s k).2.1 = LRUC.lookup s.map k) ∧
    ((LRUC.findOp false s k).2.2 = s) ∧
    ((LRUC.findOp tl s k).2.2.map = s.map) ∧
    ((LRUC.findOp tl s k).2.2.size = s.size) :=
  ⟨LRUC.findOp_ret tl s k, LRUC.findOp_val tl s k, LRUC.findOp_nolock_state s k,
   LRUC.findOp_map_frame tl s k, LRUC.findOp_size_frame tl s k⟩

/-- C6: `insert(key, value)` returns true exactly on a new insertion (false
when the key already exists), and in the duplicate case the stored value is
not updated: the map still holds the original value and a subsequent `find`
copies that original value into the accessor. -/
theorem c6_insert_duplicate_no_update {K V : Type} [DecidableEq K]
    (s : LRUC.CacheState K V) (k : K) (v : V) :
    ((LRUC.insertOp s k v).1 = (LRUC.lookup s.map k).isNone) ∧
    (∀ w, LRUC.lookup s.map k = some w →
      LRUC.lookup (LRUC.insertOp s k v).2.map k = some w ∧
      (LRUC.findOp true (LRUC.insertOp s k v).2 k).2.1 = some w) := by
  refine ⟨LRUC.insertOp_ret s k v, fun w hw => ?_⟩
  rw [LRUC.insertOp_dup s k v w hw]
  refine ⟨hw, ?_⟩
  rw [LRUC.findOp_val]
  exact hw

/-- C6 (witness): inserting over the existing key `1` keeps the old value. -/
theorem c6_insert_duplicate_no_update_witness :
    LRUC.lookup ((⟨[1], [(1, 5)], 1, 2⟩ : LRUC.CacheState Nat Nat)).map 1 = some 5 ∧
    LRUC.lookup
      (LRUC.insertOp (⟨[1], [(1, 5)], 1, 2⟩ : LRUC.CacheState Nat Nat) 1 7).2.map 1 =
      some 5 :=
  ⟨by decide, ((c6_insert_duplicate_no_update
    (⟨[1], [(1, 5)], 1, 2⟩ : LRUC.CacheState Nat Nat) 1 7).2 5 (by decide)).1⟩

/-- C7: `allocate(size_hint)` on an unallocated table picks as bucket count
the smallest prime that is at least `size_hint` and allocates that many empty
buckets; on an already-allocated table it changes nothing; the zero-argument
overload uses the default hint 2053, which is itself prime, so the default
bucket count is exactly 2053. -/
theorem c7_allocate_prime_idempotent {V : Type} (t : Intrusive.HashTable V)
    (hint : Nat) :
    (Intrusive.isAllocated t = false →
      Nat.Prime ((Intrusive.allocate t hint).bucketCount) ∧
      hint ≤ (Intrusive.allocate t hint).bucketCount ∧
      (∀ p, Nat.Prime p → hint ≤ p → (Intrusive.allocate t hint).bucketCount ≤ p) ∧
      (Intrusive.allocate t hint).table =
        some (List.replicate ((Intrusive.allocate t hint).bucketCount) [])) ∧
    (Intrusive.isAllocated t = true → Intrusive.allocate t hint = t) ∧
    Intrusive.allocateDefault t = Intrusive.allocate t 2053 ∧
    (Intrusive.isAllocated t = false →
      (Intrusive.allocateDefault t).bucketCount = 2053) := by
  obtain ⟨hp, hge, hmin⟩ := Intrusive.findPrimeFrom_spec hint
  refine ⟨fun hna => ?_, fun ha => ?_, rfl, fun hna => ?_⟩
  · rw [Intrusive.allocate, if_neg (by simp [hna])]
    exact ⟨hp, hge, fun p hpp hle => hmin p hpp hle, rfl⟩
  · rw [Intrusive.allocate, if_pos (by simp [ha])]
  · obtain ⟨hp2, hge2, hmin2⟩ := Intrusive.findPrimeFrom_spec 2053
    have h2053 : Nat.Prime 2053 := by norm_num
    have heq : Intrusive.findPrimeFrom 2053 = 2053 :=
      le_antisymm (hmin2 2053 h2053 le_rfl) hge2
    rw [Intrusive.allocateDefault, Intrusive.allocate, if_neg (by simp [hna])]
    exact heq

/-- C7 (witness): allocating an empty table with hint 10 yields the prime
bucket count 11. -/
theorem c7_allocate_prime_idempotent_witness :
    Intrusive.isAllocated (⟨none, 0, 0, false⟩ : Intrusive.HashTable Nat) = false ∧
    Nat.Prime ((Intrusive.allocate
      (⟨none, 0, 0, false⟩ : Intrusive.HashTable Nat) 10).bucketCount) ∧
    (Intrusive.allocate
      (⟨none, 0, 0, false⟩ : Intrusive.HashTable Nat) 10).bucketCount = 11 := by
  have h := (c7_allocate_prime_idempotent
    (⟨none, 0, 0, false⟩ : Intrusive.HashTable Nat) 10).1 rfl
  exact ⟨rfl, h.1, by decide⟩

/-- C8: `find(key)` returns null on an empty table; on a nonempty table it
scans only the chain at index `hash(key) mod bucketCount` and returns the
first node in chain order whose cached hash equals `hash(key)` (`List.find?`
over that single chain); and the outcome depends on the key only through its
hash: keys with equal hashes give identical results, so the match is decided
by hash equality alone, never by comparing keys. -/
theorem c8_find_hash_only {K V : Type} (hash : K → Nat)
    (t : Intrusive.HashTable V) (k : K) :
    (t.usedBuckets = 0 → Intrusive.findNode hash t k = none) ∧
    (t.usedBuckets ≠ 0 → Intrusive.findNode hash t k =
      (Intrusive.chainAt t (hash k % t.bucketCount)).find?
        (fun nd => nd.htKeyHash == hash k)) ∧
    (∀ k2, hash k = hash k2 → Intrusive.findNode hash t k = Intrusive.findNode hash t k2) := by
  refine ⟨fun hz => ?_, fun hnz => ?_, fun k2 hk => ?_⟩
  · rw [Intrusive.findNode, if_pos hz]
  · rw [Intrusive.findNode, if_neg hnz, Intrusive.scanChain_eq_find]
  · rw [Intrusive.findNode, Intrusive.findNode, hk]

/-- C8 (witness): a two-bucket table where key 2 hashes to bucket 0 and the
head of that chain carries cached hash 2. -/
theorem c8_find_hash_only_witness :
    Intrusive.findNode (fun n : Nat => n)
      (⟨some [[⟨100, 2⟩], []], 2, 1, false⟩ : Intrusive.HashTable Nat) 2 =
      some ⟨100, 2⟩ := by
  have h := (c8_find_hash_only (fun n : Nat => n)
    (⟨some [[⟨100, 2⟩], []], 2, 1, false⟩ : Intrusive.HashTable Nat) 2).2.1 (by decide)
  rw [h]
  decide

/-- C9: `popFront` never modifies `current_size_`, and on any state whose
counter respects the capacity bound an `insert` of a fresh key increments the
counter exactly when no pre-link eviction was performed: an insert that
evicts (`size ≥ capacity` at the snapshot) leaves `size()` unchanged,
otherwise `size()` grows by one. -/
theorem c9_popfront_size_frame (K V : Type) [DecidableEq K] :
    (∀ s : LRUC.CacheState K V, (LRUC.popFront s).size = s.size) ∧
    (∀ (s : LRUC.CacheState K V) (k : K) (v : V), LRUC.lookup s.map k = none →
      s.size ≤ s.capacity →
      (LRUC.insertOp s k v).2.size =
        if s.size ≥ s.capacity then s.size else s.size + 1) :=
  ⟨fun s => LRUC.popFront_size s, fun s k v hw hcap => LRUC.insertOp_size s k v hw hcap⟩

/-- C9 (witness): inserting key 2 into a full capacity-1 cache evicts and
leaves the counter at 1. -/
theorem c9_popfront_size_frame_witness :
    (LRUC.insertOp (⟨[1], [(1, 5)], 1, 1⟩ : LRUC.CacheState Nat Nat) 2 7).2.size = 1 := by
  have h := (c9_popfront_size_frame Nat Nat).2
    (⟨[1], [(1, 5)], 1, 1⟩ : LRUC.CacheState Nat Nat) 2 7 (by decide) (by decide)
  rw [h, if_pos (le_refl (1 : Int))]

/-- C10: when `insert(key, value)` hits an existing key it returns false and
the whole state is unchanged: the recency list keeps its order (no MRU
promotion of the existing entry), the counter is untouched, and the fresh
node is discarded without ever being linked. -/
theorem c10_duplicate_insert_frame {K V : Type} [DecidableEq K]
    (s : LRUC.CacheState K V) (k : K) (v w : V)
    (hw : LRUC.lookup s.map k = some w) :
    LRUC.insertOp s k v = (false, s) :=
  LRUC.insertOp_dup s k v w hw

/-- C10 (witness): a duplicate insert of key 1 returns false and changes
nothing. -/
theorem c10_duplicate_insert_frame_witness :
    LRUC.insertOp (⟨[1], [(1, 5)], 1, 2⟩ : LRUC.CacheState Nat Nat) 1 9 =
      (false, (⟨[1], [(1, 5)], 1, 2⟩ : LRUC.CacheState Nat Nat)) :=
  c10_duplicate_insert_frame (⟨[1], [(1, 5)], 1, 2⟩ : LRUC.CacheState Nat Nat) 1 9 5
    (by decide)
